import Mathlib

/-!
Verification of the error-estimation and adaptive-segmentation core of
`src/arc.cc` (Bézier-to-arc-spline approximation).

The scalar deviation bound `max_dev`, its fast variant `max_dev_approx`,
the left binary cut search `binary_find_cut_L` / `find_cut_points_L` and
the cut-point refinement ("jiggle") pass of `demo_curve` are embedded
below.  All machine `double` arithmetic is modelled by exact real
arithmetic.  The geometric error estimator `arc_bezier_error_improved`
is abstracted as a function `E : ℝ → ℝ → ℝ`, where `E a b` stands for
`arc_bezier_error_improved (b.segment (a, b))`; likewise the signed
curvature of the input curve is abstracted as `κ : ℝ → ℝ`.
-/

namespace Glyphy

/-- From `max_dev_approx` in arc.cc: `min (3/4 · max |d0| |d1|, 4/9 · (|d0|+|d1|))`. -/
noncomputable def max_dev_approx (d0 d1 : ℝ) : ℝ :=
  min (3 / 4 * max |d0| |d1|) (4 / 9 * (|d0| + |d1|))

/-- The cubic blending function `3·t·(1−t)·(d0·(1−t) + d1·t)` whose absolute
maximum over `[0,1]` the function `max_dev` computes (line 94 of arc.cc). -/
noncomputable def blend (d0 d1 t : ℝ) : ℝ :=
  3 * t * (1 - t) * (d0 * (1 - t) + d1 * t)

/-- The candidate list built by `max_dev` in arc.cc (lines 66–86): endpoints 0, 1
always; `t = 1/2` in the `d0 == d1` branch; otherwise with
`delta = d0² − d0·d1 + d1²`, `t2 = 1/(3(d0−d1))`, `t0 = (2d0−d1)·t2`:
`t0` if `delta = 0`, and `t0 ± sqrt delta · t2` if `delta > 0`. -/
noncomputable def max_dev_candidates (d0 d1 : ℝ) : List ℝ :=
  if d0 = d1 then [0, 1, 1 / 2]
  else if d0 * d0 - d0 * d1 + d1 * d1 = 0 then
    [0, 1, (2 * d0 - d1) * (1 / (3 * (d0 - d1)))]
  else if 0 < d0 * d0 - d0 * d1 + d1 * d1 then
    [0, 1,
      (2 * d0 - d1) * (1 / (3 * (d0 - d1)))
        - Real.sqrt (d0 * d0 - d0 * d1 + d1 * d1) * (1 / (3 * (d0 - d1))),
      (2 * d0 - d1) * (1 / (3 * (d0 - d1)))
        + Real.sqrt (d0 * d0 - d0 * d1 + d1 * d1) * (1 / (3 * (d0 - d1)))]
  else [0, 1]

/-- One step of the accumulation loop of `max_dev` (lines 89–96 of arc.cc):
candidates outside `[0,1]` are skipped, otherwise the running maximum is
updated with `|blend d0 d1 t|`. -/
noncomputable def devStep (d0 d1 e t : ℝ) : ℝ :=
  if t < 0 ∨ 1 < t then e else max e |blend d0 d1 t|

/-- `max_dev` from arc.cc (lines 63–99). -/
noncomputable def max_dev (d0 d1 : ℝ) : ℝ :=
  (max_dev_candidates d0 d1).foldl (devStep d0 d1) 0

lemma le_foldl_devStep (d0 d1 : ℝ) (l : List ℝ) : ∀ e : ℝ, e ≤ l.foldl (devStep d0 d1) e := by
  induction l with
  | nil => intro e; simp
  | cons a l ih =>
    intro e
    rw [List.foldl_cons]
    refine le_trans ?_ (ih _)
    unfold devStep
    split
    · exact le_rfl
    · exact le_max_left _ _

lemma mem_le_foldl_devStep (d0 d1 : ℝ) (l : List ℝ) :
    ∀ (e t : ℝ), t ∈ l → 0 ≤ t → t ≤ 1 → |blend d0 d1 t| ≤ l.foldl (devStep d0 d1) e := by
  induction l with
  | nil => intro e t ht; simp at ht
  | cons a l ih =>
    intro e t ht h0 h1
    rw [List.foldl_cons]
    rcases List.mem_cons.mp ht with rfl | hmem
    · refine le_trans ?_ (le_foldl_devStep d0 d1 l _)
      unfold devStep
      rw [if_neg (by push_neg; constructor <;> linarith)]
      exact le_max_right _ _
    · exact ih _ t hmem h0 h1

lemma foldl_devStep_cases (d0 d1 : ℝ) (l : List ℝ) :
    ∀ e : ℝ, l.foldl (devStep d0 d1) e = e ∨
      ∃ t ∈ l, 0 ≤ t ∧ t ≤ 1 ∧ l.foldl (devStep d0 d1) e = |blend d0 d1 t| := by
  induction l with
  | nil => intro e; left; simp
  | cons a l ih =>
    intro e
    rw [List.foldl_cons]
    rcases ih (devStep d0 d1 e a) with h | ⟨t, htl, h0, h1, heq⟩
    · rw [h]
      unfold devStep
      split
      · left; rfl
      · rename_i hcond
        push_neg at hcond
        rcases max_choice e |blend d0 d1 a| with hm | hm
        · left; exact hm
        · right
          exact ⟨a, List.mem_cons_self a l, hcond.1, hcond.2, hm⟩
    · right; exact ⟨t, List.mem_cons_of_mem a htl, h0, h1, heq⟩

lemma max_dev_nonneg (d0 d1 : ℝ) : 0 ≤ max_dev d0 d1 :=
  le_foldl_devStep d0 d1 (max_dev_candidates d0 d1) 0

lemma blend_zero_left (d0 d1 : ℝ) : blend d0 d1 0 = 0 := by unfold blend; ring

lemma blend_zero_right (d0 d1 : ℝ) : blend d0 d1 1 = 0 := by unfold blend; ring

lemma max_dev_mem (d0 d1 : ℝ) :
    ∃ t ∈ Set.Icc (0 : ℝ) 1, max_dev d0 d1 = |blend d0 d1 t| := by
  rcases foldl_devStep_cases d0 d1 (max_dev_candidates d0 d1) 0 with h | ⟨t, _, h0, h1, heq⟩
  · refine ⟨0, by norm_num, ?_⟩
    rw [max_dev] at *
    rw [h, blend_zero_left, abs_zero]
  · exact ⟨t, ⟨h0, h1⟩, heq⟩

lemma delta_nonneg (d0 d1 : ℝ) : 0 ≤ d0 * d0 - d0 * d1 + d1 * d1 := by
  nlinarith [sq_nonneg (d0 - d1), sq_nonneg d0, sq_nonneg d1]

lemma delta_pos_of_ne {d0 d1 : ℝ} (h : d0 ≠ d1) : 0 < d0 * d0 - d0 * d1 + d1 * d1 := by
  have hne : d0 - d1 ≠ 0 := sub_ne_zero.mpr h
  have h2 : 0 < (d0 - d1) ^ 2 := by positivity
  nlinarith [sq_nonneg d0, sq_nonneg d1]

lemma hasDerivAt_blend (d0 d1 c : ℝ) :
    HasDerivAt (fun t => blend d0 d1 t)
      (3 * d0 + 6 * (d1 - 2 * d0) * c + 9 * (d0 - d1) * c ^ 2) c := by
  have hfun : (fun t => blend d0 d1 t)
      = fun t : ℝ => 3 * d0 * t + 3 * (d1 - 2 * d0) * t ^ 2 + 3 * (d0 - d1) * t ^ 3 := by
    funext t; unfold blend; ring
  rw [hfun]
  have h1 : HasDerivAt (fun t : ℝ => t) 1 c := hasDerivAt_id c
  have h2 : HasDerivAt (fun t : ℝ => t ^ 2) (2 * c) c := by simpa using hasDerivAt_pow 2 c
  have h3 : HasDerivAt (fun t : ℝ => t ^ 3) (3 * c ^ 2) c := by simpa using hasDerivAt_pow 3 c
  have H := ((h1.const_mul (3 * d0)).add (h2.const_mul (3 * (d1 - 2 * d0)))).add
    (h3.const_mul (3 * (d0 - d1)))
  have hval : 3 * d0 + 6 * (d1 - 2 * d0) * c + 9 * (d0 - d1) * c ^ 2
      = 3 * d0 * 1 + 3 * (d1 - 2 * d0) * (2 * c) + 3 * (d0 - d1) * (3 * c ^ 2) := by ring
  rw [hval]
  exact H

/-- An interior critical point of the blending cubic is among the candidates
examined by `max_dev` (provided the cubic is not identically zero). -/
lemma crit_mem_candidates {d0 d1 c : ℝ} (hne : d0 ≠ 0 ∨ d1 ≠ 0)
    (hc : 3 * d0 + 6 * (d1 - 2 * d0) * c + 9 * (d0 - d1) * c ^ 2 = 0) :
    c ∈ max_dev_candidates d0 d1 := by
  unfold max_dev_candidates
  by_cases heq : d0 = d1
  · subst heq
    rw [if_pos rfl]
    have hd0 : d0 ≠ 0 := by rcases hne with h | h <;> exact h
    have hfac : 3 * d0 * (1 - 2 * c) = 0 := by linear_combination hc
    have := mul_eq_zero.mp hfac
    rcases this with h3 | hcc
    · exact absurd (by linarith [mul_eq_zero.mp h3] : d0 = 0) hd0
    · have : c = 1 / 2 := by linarith
      simp [this]
  · rw [if_neg heq]
    have hδ : 0 < d0 * d0 - d0 * d1 + d1 * d1 := delta_pos_of_ne heq
    rw [if_neg hδ.ne', if_pos hδ]
    have hsub : d0 - d1 ≠ 0 := sub_ne_zero.mpr heq
    have ha : (9 : ℝ) * (d0 - d1) ≠ 0 := by
      intro h
      exact hsub (by linarith [mul_eq_zero.mp h, (by norm_num : ((9:ℝ)) ≠ 0)])
    set δ := d0 * d0 - d0 * d1 + d1 * d1 with hδdef
    have hdisc : discrim (9 * (d0 - d1)) (6 * (d1 - 2 * d0)) (3 * d0)
        = (6 * Real.sqrt δ) * (6 * Real.sqrt δ) := by
      have hs : Real.sqrt δ * Real.sqrt δ = δ := Real.mul_self_sqrt hδ.le
      unfold discrim
      rw [show (6 * Real.sqrt δ) * (6 * Real.sqrt δ)
          = 36 * (Real.sqrt δ * Real.sqrt δ) from by ring, hs, hδdef]
      ring
    have hroot := (quadratic_eq_zero_iff ha hdisc c).mp (by linear_combination hc)
    rcases hroot with h | h
    · have : c = (2 * d0 - d1) * (1 / (3 * (d0 - d1)))
          + Real.sqrt δ * (1 / (3 * (d0 - d1))) := by
        rw [h]; field_simp; ring
      simp [this]
    · have : c = (2 * d0 - d1) * (1 / (3 * (d0 - d1)))
          - Real.sqrt δ * (1 / (3 * (d0 - d1))) := by
        rw [h]; field_simp; ring
      simp [this]

lemma max_dev_ub (d0 d1 : ℝ) :
    ∀ t ∈ Set.Icc (0 : ℝ) 1, |blend d0 d1 t| ≤ max_dev d0 d1 := by
  have hcont : Continuous fun t : ℝ => |blend d0 d1 t| := by
    have : Continuous fun t : ℝ => blend d0 d1 t := by unfold blend; fun_prop
    exact this.abs
  obtain ⟨c, hcmem, hcmax⟩ :=
    (isCompact_Icc : IsCompact (Set.Icc (0 : ℝ) 1)).exists_isMaxOn
      ⟨0, Set.mem_Icc.mpr (by norm_num)⟩ hcont.continuousOn
  have hmax := isMaxOn_iff.mp hcmax
  intro t ht
  refine le_trans (hmax t ht) ?_
  rcases eq_or_lt_of_le (abs_nonneg (blend d0 d1 c)) with hbc | hbc
  · rw [← hbc]
    exact max_dev_nonneg d0 d1
  · have hcne : blend d0 d1 c ≠ 0 := fun h => by rw [h, abs_zero] at hbc; exact lt_irrefl 0 hbc
    have hne : d0 ≠ 0 ∨ d1 ≠ 0 := by
      by_contra h
      push_neg at h
      exact hcne (by rw [h.1, h.2]; unfold blend; ring)
    have hc0 : c ≠ 0 := fun h => hcne (by rw [h]; exact blend_zero_left d0 d1)
    have hc1 : c ≠ 1 := fun h => hcne (by rw [h]; exact blend_zero_right d0 d1)
    have hlt0 : 0 < c := lt_of_le_of_ne hcmem.1 (Ne.symm hc0)
    have hlt1 : c < 1 := lt_of_le_of_ne hcmem.2 hc1
    have hnhds : Set.Icc (0 : ℝ) 1 ∈ nhds c := Icc_mem_nhds hlt0 hlt1
    have hderiv0 : 3 * d0 + 6 * (d1 - 2 * d0) * c + 9 * (d0 - d1) * c ^ 2 = 0 := by
      rcases lt_or_gt_of_ne hcne with hneg | hpos
      · have hmin : IsLocalMin (fun t => blend d0 d1 t) c := by
          filter_upwards [hnhds] with x hx
          have h1 : |blend d0 d1 x| ≤ |blend d0 d1 c| := hmax x hx
          have h2 : |blend d0 d1 c| = -blend d0 d1 c := abs_of_neg hneg
          have h3 : -blend d0 d1 x ≤ |blend d0 d1 x| := neg_le_abs _
          show blend d0 d1 c ≤ blend d0 d1 x
          linarith
        exact hmin.hasDerivAt_eq_zero (hasDerivAt_blend d0 d1 c)
      · have hmaxl : IsLocalMax (fun t => blend d0 d1 t) c := by
          filter_upwards [hnhds] with x hx
          have h1 : |blend d0 d1 x| ≤ |blend d0 d1 c| := hmax x hx
          have h2 : |blend d0 d1 c| = blend d0 d1 c := abs_of_pos hpos
          have h3 : blend d0 d1 x ≤ |blend d0 d1 x| := le_abs_self _
          show blend d0 d1 x ≤ blend d0 d1 c
          linarith
        exact hmaxl.hasDerivAt_eq_zero (hasDerivAt_blend d0 d1 c)
    have hcand : c ∈ max_dev_candidates d0 d1 := crit_mem_candidates hne hderiv0
    exact mem_le_foldl_devStep d0 d1 (max_dev_candidates d0 d1) 0 c hcand hcmem.1 hcmem.2

/-- `max_dev d0 d1` is the greatest value of `|blend d0 d1|` on `[0,1]`. -/
lemma max_dev_isGreatest (d0 d1 : ℝ) :
    IsGreatest {y : ℝ | ∃ t ∈ Set.Icc (0 : ℝ) 1, y = |blend d0 d1 t|} (max_dev d0 d1) := by
  constructor
  · obtain ⟨t, ht, heq⟩ := max_dev_mem d0 d1
    exact ⟨t, ht, heq⟩
  · rintro y ⟨t, ht, rfl⟩
    exact max_dev_ub d0 d1 t ht

/-- Claim C1: for all real inputs `d0, d1`, `max_dev d0 d1` returns the maximum
over `t ∈ [0,1]` of `|3·t·(1−t)·(d0·(1−t) + d1·t)|`: the candidate set (endpoints
united with the case-analysed interior critical points, candidates outside `[0,1]`
discarded) realises the true maximum of the blending function's absolute value. -/
theorem max_dev_correct (d0 d1 : ℝ) :
    IsGreatest {y : ℝ | ∃ t ∈ Set.Icc (0 : ℝ) 1, y = |blend d0 d1 t|} (max_dev d0 d1) :=
  max_dev_isGreatest d0 d1

/-- Claim C7: `max_dev d d` is computed through the special-cased `t = 1/2`
candidate (the zero-denominator expression is never formed in the `d0 = d1`
branch of `max_dev_candidates`) and its value is the blending function's
absolute value at `t = 1/2`, namely `3/4 · |d|`; in particular
`max_dev 1 1 = 3/4` and `max_dev 0 0 = 0`. -/
theorem max_dev_diagonal (d : ℝ) :
    max_dev d d = 3 / 4 * |d| ∧ max_dev d d = |blend d d (1 / 2)| ∧
      max_dev 1 1 = 3 / 4 ∧ max_dev 0 0 = 0 := by
  have hb : ∀ x : ℝ, blend x x (1 / 2) = 3 / 4 * x := by
    intro x; unfold blend; ring
  have key : ∀ x : ℝ, max_dev x x = 3 / 4 * |x| := by
    intro x
    unfold max_dev max_dev_candidates
    rw [if_pos rfl]
    simp only [List.foldl_cons, List.foldl_nil]
    unfold devStep
    rw [if_neg (by norm_num), if_neg (by norm_num), if_neg (by norm_num)]
    rw [blend_zero_left, blend_zero_right, hb, abs_zero, max_self, max_self]
    rw [abs_mul, abs_of_pos (by norm_num : (0:ℝ) < 3 / 4)]
    exact max_eq_right (by positivity)
  refine ⟨key d, ?_, ?_, ?_⟩
  · rw [key d, hb, abs_mul, abs_of_pos (by norm_num : (0:ℝ) < 3 / 4)]
  · rw [key 1]; norm_num
  · rw [key 0]; norm_num

/-- Claim C8: `max_dev_approx d0 d1 = min (0.75 · max(|d0|,|d1|)) (4/9 · (|d0|+|d1|))`,
and in particular `max_dev_approx 0 0 = 0`. -/
theorem max_dev_approx_spec (d0 d1 : ℝ) :
    max_dev_approx d0 d1 = min (0.75 * max |d0| |d1|) (4 / 9 * (|d0| + |d1|)) ∧
      max_dev_approx 0 0 = 0 := by
  constructor
  · unfold max_dev_approx; norm_num
  · unfold max_dev_approx; norm_num

/-- Claim C10: in exact real arithmetic `max_dev` is symmetric in its two
arguments: the substitution `t ↦ 1 − t` maps the blending function for
`(d0, d1)` onto the one for `(d1, d0)`, so both compute the same maximum. -/
theorem max_dev_symm (d0 d1 : ℝ) : max_dev d0 d1 = max_dev d1 d0 := by
  have hset : {y : ℝ | ∃ t ∈ Set.Icc (0 : ℝ) 1, y = |blend d0 d1 t|}
      = {y : ℝ | ∃ t ∈ Set.Icc (0 : ℝ) 1, y = |blend d1 d0 t|} := by
    ext y
    constructor
    · rintro ⟨t, ht, rfl⟩
      refine ⟨1 - t, ⟨by linarith [ht.2], by linarith [ht.1]⟩, ?_⟩
      rw [show blend d1 d0 (1 - t) = blend d0 d1 t from by unfold blend; ring]
    · rintro ⟨t, ht, rfl⟩
      refine ⟨1 - t, ⟨by linarith [ht.2], by linarith [ht.1]⟩, ?_⟩
      rw [show blend d0 d1 (1 - t) = blend d1 d0 t from by unfold blend; ring]
  exact (max_dev_isGreatest d0 d1).unique (hset ▸ max_dev_isGreatest d1 d0)

/-!
The left binary cut search (`binary_find_cut_L`, arc.cc lines 332–366) and the
greedy left-to-right cut-point pass (`find_cut_points_L`, lines 422–430).
`E a b` abstracts `arc_bezier_error_improved (b.segment (a, b))`.  The loop of
`binary_find_cut_L` runs `MAX_ITERS = 20` iterations unless the error hits
`epsilon` exactly; the fuel argument of `bfcL_loop` counts the remaining
iterations and the returned natural number counts the iterations executed.
The `while` loop of `find_cut_points_L` is modelled with explicit fuel,
returning `none` when the fuel runs out before the loop condition fails.
-/

/-- The bisection loop of `binary_find_cut_L`: from known-feasible `low` and
known-infeasible `high`, repeatedly test the midpoint; return the last midpoint
together with the number of iterations executed.  The third real argument
threads the `cut_point` variable of the C loop (uninitialised before the first
iteration, modelled as the caller-supplied sentinel). -/
noncomputable def bfcL_loop (E : ℝ → ℝ → ℝ) (i ε : ℝ) : ℕ → ℝ → ℝ → ℝ → ℝ × ℕ
  | 0, _, _, cut => (cut, 0)
  | n + 1, low, high, _ =>
    if E i ((low + high) / 2) = ε then ((low + high) / 2, 1)
    else if E i ((low + high) / 2) < ε then
      ((bfcL_loop E i ε n ((low + high) / 2) high ((low + high) / 2)).1,
        (bfcL_loop E i ε n ((low + high) / 2) high ((low + high) / 2)).2 + 1)
    else
      ((bfcL_loop E i ε n low ((low + high) / 2) ((low + high) / 2)).1,
        (bfcL_loop E i ε n low ((low + high) / 2) ((low + high) / 2)).2 + 1)

/-- `binary_find_cut_L` from arc.cc: fast path returns 1 when the full remaining
segment `[i, 1]` has error strictly below `epsilon`; otherwise 20 bisection
iterations.  Also returns the number of bisection iterations executed. -/
noncomputable def binary_find_cut_L (E : ℝ → ℝ → ℝ) (i ε : ℝ) : ℝ × ℕ :=
  if E i 1 < ε then (1, 0) else bfcL_loop E i ε 20 i 1 0

/-- `find_cut_points_L` from arc.cc: starting from `t = 0`, repeatedly call
`binary_find_cut_L` and push the returned endpoint, while `t < 1`.  Fuel-indexed;
`none` means the fuel was exhausted with the loop still running.  Each list entry
pairs a pushed cut point with the bisection-iteration count that produced it. -/
noncomputable def find_cut_points_L (E : ℝ → ℝ → ℝ) (ε : ℝ) :
    ℕ → ℝ → Option (List (ℝ × ℕ))
  | 0, t => if t < 1 then none else some []
  | n + 1, t =>
    if t < 1 then
      (find_cut_points_L E ε n (binary_find_cut_L E t ε).1).map
        (fun l => binary_find_cut_L E t ε :: l)
    else some []

lemma bfcL_loop_steps_le (E : ℝ → ℝ → ℝ) (i ε : ℝ) :
    ∀ (n : ℕ) (low high cut : ℝ), (bfcL_loop E i ε n low high cut).2 ≤ n := by
  intro n
  induction n with
  | zero => intro low high cut; simp [bfcL_loop]
  | succ n ih =>
    intro low high cut
    rw [bfcL_loop]
    split
    · simp
    · split
      · simpa using Nat.succ_le_succ (ih _ _ _)
      · simpa using Nat.succ_le_succ (ih _ _ _)

lemma bfcL_loop_bounds (E : ℝ → ℝ → ℝ) (i ε : ℝ) :
    ∀ (n : ℕ) (low high cut : ℝ), low < high →
      low + (high - low) / 2 ^ (n + 1) ≤ (bfcL_loop E i ε (n + 1) low high cut).1 ∧
        (bfcL_loop E i ε (n + 1) low high cut).1 < high := by
  intro n
  induction n with
  | zero =>
    intro low high cut h
    rw [bfcL_loop]
    have hmid : low + (high - low) / 2 ^ 1 = (low + high) / 2 := by ring
    split
    · constructor
      · rw [hmid]
      · simp only
        linarith
    · split <;> simp [bfcL_loop] <;> constructor <;> first
        | rw [hmid]
        | linarith
  | succ n ih =>
    intro low high cut h
    have hmidlt : (low + high) / 2 < high := by linarith
    have hltmid : low < (low + high) / 2 := by linarith
    have hpow : (0:ℝ) < 2 ^ (n + 2) := by positivity
    have hpow2 : (2:ℝ) ≤ 2 ^ (n + 2) := by
      calc (2:ℝ) = 2 ^ 1 := (pow_one 2).symm
      _ ≤ 2 ^ (n + 2) := pow_le_pow_right₀ one_le_two (by omega)
    have hdivle : (high - low) / 2 ^ (n + 2) ≤ (high - low) / 2 :=
      div_le_div_of_nonneg_left (by linarith) (by norm_num) hpow2
    rw [bfcL_loop]
    split
    · constructor
      · simp only
        linarith
      · simp only
        linarith
    · split
      · obtain ⟨h1, h2⟩ := ih ((low + high) / 2) high ((low + high) / 2) hmidlt
        constructor
        · simp only
          have : (0:ℝ) < (high - (low + high) / 2) / 2 ^ (n + 1) :=
            div_pos (by linarith) (by positivity)
          linarith
        · simpa using h2
      · obtain ⟨h1, h2⟩ := ih low ((low + high) / 2) ((low + high) / 2) hltmid
        constructor
        · simp only
          have heq : low + ((low + high) / 2 - low) / 2 ^ (n + 1)
              = low + (high - low) / 2 ^ (n + 2) := by ring
          rw [heq] at h1
          exact h1
        · simp only
          linarith

lemma binary_find_cut_L_progress (E : ℝ → ℝ → ℝ) (t ε : ℝ) (ht : t < 1) :
    binary_find_cut_L E t ε = (1, 0) ∨
      (t + (1 - t) / 2 ^ 20 ≤ (binary_find_cut_L E t ε).1 ∧
        (binary_find_cut_L E t ε).1 < 1 ∧
        (binary_find_cut_L E t ε).2 ≤ 20) := by
  unfold binary_find_cut_L
  split
  · left; rfl
  · right
    have hb := bfcL_loop_bounds E t ε 19 t 1 0 ht
    have hs := bfcL_loop_steps_le E t ε 20 t 1 0
    norm_num at hb ⊢
    exact ⟨hb.1, hb.2, hs⟩

lemma getLast?_cons_of_ne_nil {α : Type} (a : α) {l : List α} (h : l ≠ []) :
    (a :: l).getLast? = l.getLast? := by
  cases l with
  | nil => exact absurd rfl h
  | cons b l => exact List.getLast?_cons_cons

lemma sum_snd_le_twenty_mul :
    ∀ l : List (ℝ × ℕ), (∀ p ∈ l, p.2 ≤ 20) → (l.map Prod.snd).sum ≤ 20 * l.length := by
  intro l
  induction l with
  | nil => intro _; simp
  | cons a l ih =>
    intro h
    simp only [List.map_cons, List.sum_cons, List.length_cons]
    have h1 := h a (List.mem_cons_self a l)
    have h2 := ih fun p hp => h p (List.mem_cons_of_mem a hp)
    omega

/-- If the greedy pass completes within some fuel, any larger fuel gives the
same result (the loop has genuinely terminated). -/
lemma find_cut_points_L_mono (E : ℝ → ℝ → ℝ) (ε : ℝ) :
    ∀ (N : ℕ) (t : ℝ) (l : List (ℝ × ℕ)), find_cut_points_L E ε N t = some l →
      ∀ M, N ≤ M → find_cut_points_L E ε M t = some l := by
  intro N
  induction N with
  | zero =>
    intro t l h M _
    rw [find_cut_points_L] at h
    by_cases ht : t < 1
    · rw [if_pos ht] at h; exact absurd h (by simp)
    · rw [if_neg ht] at h
      cases M with
      | zero => rw [find_cut_points_L, if_neg ht]; exact h
      | succ M => rw [find_cut_points_L, if_neg ht]; exact h
  | succ N ih =>
    intro t l h M hM
    obtain ⟨M', rfl⟩ : ∃ M', M = M' + 1 := ⟨M - 1, by omega⟩
    rw [find_cut_points_L] at h
    rw [find_cut_points_L]
    by_cases ht : t < 1
    · rw [if_pos ht] at h ⊢
      obtain ⟨l', hl', rfl⟩ := Option.map_eq_some'.mp h
      rw [ih _ _ hl' M' (by omega)]
      rfl
    · rw [if_neg ht] at h ⊢
      exact h

/-- Core induction for termination of `find_cut_points_L`: if terminal segments
of parameter length at most `δ` pass the tolerance test, then from any start
`t < 1` with `(1 − t)·q^k ≤ δ` (where `q = 1 − 1/2²⁰` is the worst-case
per-call shrink factor), fuel `k + 1` completes the loop, the produced list is
nonempty, ends in the cut `1`, and every entry used at most 20 bisections. -/
lemma find_cut_points_L_reaches (E : ℝ → ℝ → ℝ) (ε δ : ℝ)
    (hnear : ∀ t, 1 - δ ≤ t → t < 1 → E t 1 < ε) :
    ∀ (k : ℕ) (t : ℝ), t < 1 → (1 - t) * (1 - 1 / 2 ^ 20) ^ k ≤ δ →
      ∃ l, find_cut_points_L E ε (k + 1) t = some l ∧ l ≠ [] ∧
        (l.map Prod.fst).getLast? = some 1 ∧ ∀ p ∈ l, p.2 ≤ 20 := by
  intro k
  induction k with
  | zero =>
    intro t ht hle
    have hfast : E t 1 < ε := hnear t (by nlinarith) ht
    refine ⟨[(1, 0)], ?_, by simp, by simp, by simp⟩
    rw [find_cut_points_L, if_pos ht]
    rw [show binary_find_cut_L E t ε = (1, 0) from by
      unfold binary_find_cut_L; rw [if_pos hfast]]
    rw [find_cut_points_L]
    norm_num
  | succ k ih =>
    intro t ht hle
    have hq0 : (0:ℝ) ≤ 1 - 1 / 2 ^ 20 := by norm_num
    rcases binary_find_cut_L_progress E t ε ht with hfast | ⟨hlb, hub, hsteps⟩
    · refine ⟨[(1, 0)], ?_, by simp, by simp, by simp⟩
      rw [find_cut_points_L, if_pos ht, hfast]
      have h1 : find_cut_points_L E ε (k + 1) 1 = some [] := by
        rw [find_cut_points_L]
        norm_num
      rw [h1]
      rfl
    · set r := binary_find_cut_L E t ε with hr
      have hshrink : (1 : ℝ) - r.1 ≤ (1 - t) * (1 - 1 / 2 ^ 20) := by
        have h20 : (0:ℝ) < 2 ^ 20 := by positivity
        have : (1 - t) * (1 - 1 / 2 ^ 20) = 1 - t - (1 - t) / 2 ^ 20 := by
          field_simp
          ring
        rw [this]
        linarith
      have hnext : (1 - r.1) * (1 - 1 / 2 ^ 20) ^ k ≤ δ := by
        calc (1 - r.1) * (1 - 1 / 2 ^ 20) ^ k
            ≤ ((1 - t) * (1 - 1 / 2 ^ 20)) * (1 - 1 / 2 ^ 20) ^ k := by
              have := pow_nonneg hq0 k
              nlinarith
          _ = (1 - t) * (1 - 1 / 2 ^ 20) ^ (k + 1) := by ring
          _ ≤ δ := hle
      obtain ⟨l', hl', hne, hlast, hstep20⟩ := ih r.1 hub hnext
      refine ⟨r :: l', ?_, by simp, ?_, ?_⟩
      · rw [find_cut_points_L, if_pos ht, ← hr, hl']
        rfl
      · rw [List.map_cons, getLast?_cons_of_ne_nil _ (by simpa using hne)]
        exact hlast
      · intro p hp
        rcases List.mem_cons.mp hp with rfl | hp'
        · exact hsteps
        · exact hstep20 p hp'

/-- Claim C2: for every error estimator `E` (abstracting
`arc_bezier_error_improved` on segments of a cubic Bézier) and tolerance
`ε > 0` such that all sufficiently short terminal segments `[t, 1]` pass the
tolerance test (which holds for the geometric estimator since its error
vanishes as the segment shrinks), `find_cut_points_L` terminates: some fuel
`N` completes the loop and all larger fuels agree; the produced cut sequence
ends at exactly `1`; each produced cut used at most 20 bisection iterations,
for a total of at most `20 × (number of cuts)` bisection steps. -/
theorem find_cut_points_L_terminates (E : ℝ → ℝ → ℝ) (ε δ : ℝ) (_hε : 0 < ε)
    (hδ : 0 < δ) (hnear : ∀ t, 1 - δ ≤ t → t < 1 → E t 1 < ε) :
    ∃ N l, find_cut_points_L E ε N 0 = some l ∧
      (∀ M, N ≤ M → find_cut_points_L E ε M 0 = some l) ∧
      (l.map Prod.fst).getLast? = some 1 ∧
      (∀ p ∈ l, p.2 ≤ 20) ∧
      (l.map Prod.snd).sum ≤ 20 * l.length := by
  obtain ⟨k, hk⟩ := exists_pow_lt_of_lt_one hδ (by norm_num : (1:ℝ) - 1 / 2 ^ 20 < 1)
  obtain ⟨l, hl, _, hlast, hstep20⟩ :=
    find_cut_points_L_reaches E ε δ hnear k 0 (by norm_num) (by simpa using hk.le)
  exact ⟨k + 1, l, hl, fun M hM => find_cut_points_L_mono E ε (k + 1) 0 l hl M hM,
    hlast, hstep20, sum_snd_le_twenty_mul l hstep20⟩

/-- Witness for C2 at a concrete instance: the constant-zero estimator with
`ε = 1`, `δ = 1`. -/
theorem find_cut_points_L_terminates_witness :
    ∃ N l, find_cut_points_L (fun _ _ => 0) 1 N 0 = some l ∧
      (∀ M, N ≤ M → find_cut_points_L (fun _ _ => 0) 1 M 0 = some l) ∧
      (l.map Prod.fst).getLast? = some 1 ∧
      (∀ p ∈ l, p.2 ≤ 20) ∧
      (l.map Prod.snd).sum ≤ 20 * l.length :=
  find_cut_points_L_terminates (fun _ _ => 0) 1 1 (by norm_num) (by norm_num)
    (fun t _ _ => by norm_num)

/-- Claim C4 (amended): the fast path of `binary_find_cut_L` fires exactly when
the error of the full remaining segment is strictly below `ε`; then it returns
1 immediately with no bisection iterations. -/
theorem binary_find_cut_L_fast_path (E : ℝ → ℝ → ℝ) (i ε : ℝ) (h : E i 1 < ε) :
    binary_find_cut_L E i ε = (1, 0) := by
  unfold binary_find_cut_L
  rw [if_pos h]

/-- Witness for C4's amended theorem: zero estimator, `ε = 1`. -/
theorem binary_find_cut_L_fast_path_witness :
    binary_find_cut_L (fun _ _ => 0) 0 1 = (1, 0) :=
  binary_find_cut_L_fast_path (fun _ _ => 0) 0 1 (by norm_num)

/-- Counterexample to claim C4 as stated: with the constant estimator whose
error on the full segment equals `ε` exactly (`E 0 1 = 1 = ε`), the fast path
is NOT taken (the code tests `error < epsilon` strictly) and the bisection loop
returns the midpoint `1/2`, not `1`. -/
theorem binary_find_cut_L_equal_eps_not_immediate :
    (fun _ _ => (1:ℝ)) 0 1 = 1 ∧
      binary_find_cut_L (fun _ _ => (1:ℝ)) 0 1 = (1 / 2, 1) ∧ (1:ℝ) / 2 ≠ 1 := by
  refine ⟨rfl, ?_, by norm_num⟩
  unfold binary_find_cut_L
  rw [if_neg (by norm_num)]
  rw [show (20:ℕ) = 19 + 1 from rfl, bfcL_loop]
  norm_num

/-!
The cut-point refinement ("jiggle") pass of `demo_curve` (arc.cc lines 520–559).
The mutable arrays `cut_point`, `arc_error`, `cut_low`, `cut_high` are modelled
as functions `ℕ → ℝ` collected in a state record.  `E` abstracts the improved
error estimator on parameter segments and `κ` the signed curvature of the curve
at a parameter (computed in the source from `b.tangent` and `b.d_tangent`).
-/

/-- The parallel mutable arrays of `demo_curve`'s refinement stage. -/
structure JiggleState where
  cut_point : ℕ → ℝ
  arc_error : ℕ → ℝ
  cut_low : ℕ → ℝ
  cut_high : ℕ → ℝ

/-- The step size of one jiggle adjustment (arc.cc line 550):
`|error[i+1] − error[i]| / (2^(1+curvature) · ε)`. -/
noncomputable def step_size (ε κ e0 e1 : ℝ) : ℝ :=
  |e1 - e0| / (2 ^ (1 + κ) * ε)

/-- One jiggle adjustment of an interior cut point (arc.cc lines 550–554):
move toward the segment with higher error, scaled by the distance to the
corresponding range bound.  No clamping is performed. -/
noncomputable def jiggleMove (ε κ low high cut e0 e1 : ℝ) : ℝ :=
  if e0 < e1 then cut - step_size ε κ e0 e1 * (cut - low)
  else cut + step_size ε κ e0 e1 * (high - cut)

/-- The body of the inner jiggle loop at index `i` (arc.cc lines 544–557):
recompute curvature at `cut_point[i]`, move `cut_point[i+1]`, then update
`arc_error[i]` from the adjusted segment (the error is recomputed from the
array after the write, so it reads the unchanged `cut_point[i]` and the new
`cut_point[i+1]`).  Only those two entries are written. -/
noncomputable def jiggleBody (E : ℝ → ℝ → ℝ) (κ : ℝ → ℝ) (ε : ℝ)
    (s : JiggleState) (i : ℕ) : JiggleState where
  cut_point := Function.update s.cut_point (i + 1)
    (jiggleMove ε (κ (s.cut_point i)) (s.cut_low i) (s.cut_high i)
      (s.cut_point (i + 1)) (s.arc_error i) (s.arc_error (i + 1)))
  arc_error := Function.update s.arc_error i
    (E (s.cut_point i)
      (jiggleMove ε (κ (s.cut_point i)) (s.cut_low i) (s.cut_high i)
        (s.cut_point (i + 1)) (s.arc_error i) (s.arc_error (i + 1))))
  cut_low := s.cut_low
  cut_high := s.cut_high

/-- One pass of the jiggle loop over the interior cut indices `0, …, n−1`
(arc.cc line 543). -/
noncomputable def jigglePass (E : ℝ → ℝ → ℝ) (κ : ℝ → ℝ) (ε : ℝ) (n : ℕ)
    (s : JiggleState) : JiggleState :=
  (List.range n).foldl (jiggleBody E κ ε) s

/-- The outer jiggle loop of arc.cc line 542:
`for (int jiggle_count = 1; jiggle_count < 10; jiggle_count++)`. -/
def jiggleFor {α : Type} (f : α → α) (jc : ℕ) (s : α) : α :=
  if h : jc < 10 then jiggleFor f (jc + 1) (f s) else s
termination_by 10 - jc
decreasing_by omega

/-- The initial cut-point array of the refinement stage (arc.cc lines 527–538):
`cut_point[0] = 0`, `cut_point[n+1] = 1`, and each interior point is the
midpoint of its admissible range. -/
noncomputable def initCutPoint (low high : ℕ → ℝ) (n : ℕ) : ℕ → ℝ :=
  fun k => if k = 0 then 0 else if k = n + 1 then 1
    else (low (k - 1) + high (k - 1)) / 2

/-- The initial refinement state (arc.cc lines 526–539): the initial cut points
together with the per-segment error estimates computed from them. -/
noncomputable def initState (E : ℝ → ℝ → ℝ) (low high : ℕ → ℝ) (n : ℕ) :
    JiggleState :=
  { cut_point := initCutPoint low high n
    arc_error := fun k => E (initCutPoint low high n k) (initCutPoint low high n (k + 1))
    cut_low := low
    cut_high := high }

/-- The whole refinement stage: initialise, then run the jiggle loop. -/
noncomputable def jiggleRefine (E : ℝ → ℝ → ℝ) (κ : ℝ → ℝ) (ε : ℝ)
    (low high : ℕ → ℝ) (n : ℕ) : JiggleState :=
  jiggleFor (jigglePass E κ ε n) 1 (initState E low high n)

/-- The loop `for (jiggle_count = 1; jiggle_count < 10; ++jiggle_count)`
applies its body exactly nine times. -/
lemma jiggleFor_from_one {α : Type} (f : α → α) (s : α) :
    jiggleFor f 1 s = f (f (f (f (f (f (f (f (f s)))))))) := by
  rw [jiggleFor, dif_pos (by norm_num : (1:ℕ) < 10)]
  rw [jiggleFor, dif_pos (by norm_num : (2:ℕ) < 10)]
  rw [jiggleFor, dif_pos (by norm_num : (3:ℕ) < 10)]
  rw [jiggleFor, dif_pos (by norm_num : (4:ℕ) < 10)]
  rw [jiggleFor, dif_pos (by norm_num : (5:ℕ) < 10)]
  rw [jiggleFor, dif_pos (by norm_num : (6:ℕ) < 10)]
  rw [jiggleFor, dif_pos (by norm_num : (7:ℕ) < 10)]
  rw [jiggleFor, dif_pos (by norm_num : (8:ℕ) < 10)]
  rw [jiggleFor, dif_pos (by norm_num : (9:ℕ) < 10)]
  rw [jiggleFor, dif_neg (by norm_num : ¬ (10:ℕ) < 10)]

/-- Claim C6 (amended): the refinement loop performs exactly nine passes, not
ten: `jiggleFor f 1` is ninefold application of the pass body `f`. -/
theorem jiggleFor_nine_passes {α : Type} (f : α → α) (s : α) :
    jiggleFor f 1 s = f (f (f (f (f (f (f (f (f s)))))))) :=
  jiggleFor_from_one f s

/-- Counterexample to claim C6 as stated: counting the applications of the loop
body (body = successor, start = 0) shows the loop runs its body 9 times, so a
pass counter ends at 9, not at 10. -/
theorem jiggleFor_not_ten_passes :
    jiggleFor Nat.succ 1 0 = 9 ∧ jiggleFor Nat.succ 1 0 ≠ 10 := by
  have h := jiggleFor_from_one Nat.succ 0
  rw [h]
  norm_num

lemma step_size_nonneg (ε κ e0 e1 : ℝ) (hε : 0 < ε) : 0 ≤ step_size ε κ e0 e1 := by
  unfold step_size
  have h2 : (0:ℝ) < 2 ^ (1 + κ) := Real.rpow_pos_of_pos (by norm_num) _
  positivity

/-- Claim C5 (amended): a jiggle adjustment keeps the cut point inside its
admissible range `[low, high]` provided the computed step size is at most 1
(the source performs no clamping, so this bound is a hypothesis, not an
invariant it guarantees). -/
theorem jiggleMove_stays_in_range (ε κ low high cut e0 e1 : ℝ) (hε : 0 < ε)
    (hlow : low ≤ cut) (hhigh : cut ≤ high) (hs : step_size ε κ e0 e1 ≤ 1) :
    low ≤ jiggleMove ε κ low high cut e0 e1 ∧
      jiggleMove ε κ low high cut e0 e1 ≤ high := by
  have hs0 : 0 ≤ step_size ε κ e0 e1 := step_size_nonneg ε κ e0 e1 hε
  unfold jiggleMove
  split
  · constructor
    · nlinarith
    · nlinarith
  · constructor
    · nlinarith
    · nlinarith

/-- Witness for C5's amended theorem: `ε = 1`, `κ = 0`, range `[0,1]`, cut `1/2`,
errors `0` and `1` give step size `1/2 ≤ 1`, and the move stays within `[0,1]`. -/
theorem jiggleMove_stays_in_range_witness :
    0 ≤ jiggleMove 1 0 0 1 (1/2) 0 1 ∧ jiggleMove 1 0 0 1 (1/2) 0 1 ≤ 1 :=
  jiggleMove_stays_in_range 1 0 0 1 (1/2) 0 1 (by norm_num) (by norm_num)
    (by norm_num)
    (by unfold step_size
        rw [show (1:ℝ) + 0 = 1 from by norm_num, Real.rpow_one]
        norm_num)

/-- Counterexample to claim C5 as stated: with `ε = 1`, curvature `0`, admissible
range `[1/4, 3/4]`, cut point `1/2` and adjacent segment errors `0` and `4`, the
step size is `|4 − 0| / (2¹ · 1) = 2`, and the unclamped adjustment moves the cut
point to `0`, strictly below its admissible lower bound `1/4`. -/
theorem jiggleMove_escapes_range :
    jiggleMove 1 0 (1/4) (3/4) (1/2) 0 4 < 1/4 := by
  unfold jiggleMove step_size
  rw [if_pos (by norm_num : (0:ℝ) < 4)]
  rw [show (1:ℝ) + 0 = 1 from by norm_num, Real.rpow_one]
  norm_num

/-- Claim C9: one jiggle adjustment at interior index `i` writes only
`cut_point[i+1]` and `arc_error[i]`: the bounds arrays are untouched,
`arc_error[i+1]` (the stored error of the other segment adjacent to the moved
cut) and every other `arc_error` entry are unchanged, and every other
`cut_point` entry is unchanged. -/
theorem jiggleBody_frame (E : ℝ → ℝ → ℝ) (κ : ℝ → ℝ) (ε : ℝ)
    (s : JiggleState) (i : ℕ) :
    (jiggleBody E κ ε s i).cut_low = s.cut_low ∧
    (jiggleBody E κ ε s i).cut_high = s.cut_high ∧
    (jiggleBody E κ ε s i).arc_error (i + 1) = s.arc_error (i + 1) ∧
    (∀ j, j ≠ i → (jiggleBody E κ ε s i).arc_error j = s.arc_error j) ∧
    (∀ j, j ≠ i + 1 → (jiggleBody E κ ε s i).cut_point j = s.cut_point j) := by
  refine ⟨rfl, rfl, ?_, ?_, ?_⟩
  · exact Function.update_noteq (by omega) _ _
  · intro j hj
    exact Function.update_noteq hj _ _
  · intro j hj
    exact Function.update_noteq hj _ _

/-- Witness for C9 at a concrete instance: the adjustment at index 0 of the
all-zero state leaves `arc_error[1]` and `cut_point[0]` untouched. -/
theorem jiggleBody_frame_witness :
    (jiggleBody (fun _ _ => 0) (fun _ => 0) 1 ⟨fun _ => 0, fun _ => 0, fun _ => 0, fun _ => 0⟩ 0).arc_error 1 = 0 ∧
    (jiggleBody (fun _ _ => 0) (fun _ => 0) 1 ⟨fun _ => 0, fun _ => 0, fun _ => 0, fun _ => 0⟩ 0).cut_point 0 = 0 := by
  have h := jiggleBody_frame (fun _ _ => 0) (fun _ => 0) 1
    ⟨fun _ => 0, fun _ => 0, fun _ => 0, fun _ => 0⟩ 0
  exact ⟨h.2.2.1, h.2.2.2.2 0 (by omega)⟩

lemma JiggleState.ext' {s t : JiggleState} (h1 : s.cut_point = t.cut_point)
    (h2 : s.arc_error = t.arc_error) (h3 : s.cut_low = t.cut_low)
    (h4 : s.cut_high = t.cut_high) : s = t := by
  cases s; cases t; simp_all

lemma foldl_jiggleBody_cut_point_frame (E : ℝ → ℝ → ℝ) (κ : ℝ → ℝ) (ε : ℝ)
    (l : List ℕ) (j : ℕ) (hj : ∀ i ∈ l, j ≠ i + 1) :
    ∀ s : JiggleState, (l.foldl (jiggleBody E κ ε) s).cut_point j = s.cut_point j := by
  induction l with
  | nil => intro s; rfl
  | cons a l ih =>
    intro s
    rw [List.foldl_cons]
    rw [ih (fun i hi => hj i (List.mem_cons_of_mem a hi))]
    exact Function.update_noteq (hj a (List.mem_cons_self a l)) _ _

/-- A jiggle pass over interior indices `0, …, n−1` never writes `cut_point[0]`
nor `cut_point[j]` for `j ≥ n+1`. -/
lemma jigglePass_cut_point_frame (E : ℝ → ℝ → ℝ) (κ : ℝ → ℝ) (ε : ℝ) (n j : ℕ)
    (hj : j = 0 ∨ n + 1 ≤ j) :
    ∀ s : JiggleState, (jigglePass E κ ε n s).cut_point j = s.cut_point j := by
  intro s
  unfold jigglePass
  refine foldl_jiggleBody_cut_point_frame E κ ε (List.range n) j ?_ s
  intro i hi
  have := List.mem_range.mp hi
  omega

/-- Claim C3 (amended): after the refinement pass the endpoint entries are
intact: `cut_point[0] = 0` and `cut_point[n+1] = 1` (the jiggle loop never
writes them).  Strict monotonicity of the interior cut points is NOT preserved
in general, since the adjustment step is unclamped
(see `jiggleRefine_not_strictly_increasing`). -/
theorem jiggleRefine_endpoints (E : ℝ → ℝ → ℝ) (κ : ℝ → ℝ) (ε : ℝ)
    (low high : ℕ → ℝ) (n : ℕ) :
    (jiggleRefine E κ ε low high n).cut_point 0 = 0 ∧
      (jiggleRefine E κ ε low high n).cut_point (n + 1) = 1 := by
  unfold jiggleRefine
  rw [jiggleFor_from_one]
  constructor
  · simp only [jigglePass_cut_point_frame E κ ε n 0 (Or.inl rfl)]
    simp [initState, initCutPoint]
  · simp only [jigglePass_cut_point_frame E κ ε n (n + 1) (Or.inr le_rfl)]
    simp [initState, initCutPoint]

/-- Concrete data refuting the strict-increase claim: estimator `8·a` on
segment `[a,b]`, zero curvature, tolerance 1, one interior cut with admissible
range `[0,1]`. -/
noncomputable def exE : ℝ → ℝ → ℝ := fun a _ => 8 * a

noncomputable def exKappa : ℝ → ℝ := fun _ => 0

noncomputable def exLow : ℕ → ℝ := fun _ => 0

noncomputable def exHigh : ℕ → ℝ := fun _ => 1

noncomputable def exInit : JiggleState := initState exE exLow exHigh 1

/-- `exInit` with its interior cut point moved to `−1/2`. -/
noncomputable def exFlip : JiggleState :=
  { exInit with cut_point := Function.update exInit.cut_point 1 (-(1 / 2)) }

lemma exInit_cp0 : exInit.cut_point 0 = 0 := by
  simp [exInit, initState, initCutPoint]

lemma exInit_cp1 : exInit.cut_point 1 = 1 / 2 := by
  simp [exInit, initState, initCutPoint, exLow, exHigh]

lemma exInit_ae0 : exInit.arc_error 0 = 0 := by
  simp [exInit, initState, initCutPoint, exE]

lemma exInit_ae1 : exInit.arc_error 1 = 4 := by
  simp [exInit, initState, initCutPoint, exE, exLow, exHigh]
  norm_num

lemma exMove_down : jiggleMove 1 0 0 1 (1 / 2) 0 4 = -(1 / 2) := by
  unfold jiggleMove step_size
  rw [if_pos (by norm_num : (0:ℝ) < 4)]
  rw [show (1:ℝ) + 0 = 1 from by norm_num, Real.rpow_one]
  norm_num

lemma exMove_up : jiggleMove 1 0 0 1 (-(1 / 2)) 0 4 = 1 / 2 := by
  unfold jiggleMove step_size
  rw [if_pos (by norm_num : (0:ℝ) < 4)]
  rw [show (1:ℝ) + 0 = 1 from by norm_num, Real.rpow_one]
  norm_num

lemma exPass_init : jigglePass exE exKappa 1 1 exInit = exFlip := by
  unfold jigglePass
  rw [show List.range 1 = [0] from rfl, List.foldl_cons, List.foldl_nil]
  unfold jiggleBody
  refine JiggleState.ext' ?_ ?_ rfl rfl
  · show Function.update exInit.cut_point (0 + 1) _ = exFlip.cut_point
    rw [show exKappa (exInit.cut_point 0) = 0 from rfl,
      show exInit.cut_low 0 = 0 from rfl, show exInit.cut_high 0 = 1 from rfl,
      exInit_cp1, exInit_ae0, exInit_ae1, exMove_down]
    rfl
  · show Function.update exInit.arc_error 0 _ = exFlip.arc_error
    rw [show exKappa (exInit.cut_point 0) = 0 from rfl,
      show exInit.cut_low 0 = 0 from rfl, show exInit.cut_high 0 = 1 from rfl,
      exInit_cp1, exInit_ae0, exInit_ae1, exMove_down]
    have hval : exE (exInit.cut_point 0) (-(1 / 2)) = exInit.arc_error 0 := by
      rw [exInit_cp0, exInit_ae0]
      simp [exE]
    rw [hval, Function.update_eq_self]
    rfl

lemma exPass_flip : jigglePass exE exKappa 1 1 exFlip = exInit := by
  unfold jigglePass
  rw [show List.range 1 = [0] from rfl, List.foldl_cons, List.foldl_nil]
  unfold jiggleBody
  have hcp0 : exFlip.cut_point 0 = 0 := by
    show Function.update exInit.cut_point 1 (-(1 / 2)) 0 = 0
    rw [Function.update_noteq (by omega)]
    exact exInit_cp0
  have hcp1 : exFlip.cut_point 1 = -(1 / 2) := by
    show Function.update exInit.cut_point 1 (-(1 / 2)) 1 = -(1 / 2)
    rw [Function.update_same]
  refine JiggleState.ext' ?_ ?_ rfl rfl
  · show Function.update exFlip.cut_point (0 + 1) _ = exInit.cut_point
    rw [show exKappa (exFlip.cut_point 0) = 0 from rfl,
      show exFlip.cut_low 0 = 0 from rfl, show exFlip.cut_high 0 = 1 from rfl,
      show exFlip.arc_error 0 = 0 from exInit_ae0,
      show exFlip.arc_error 1 = 4 from exInit_ae1,
      hcp1, exMove_up]
    show Function.update (Function.update exInit.cut_point 1 (-(1 / 2))) 1 (1 / 2)
      = exInit.cut_point
    rw [Function.update_idem, ← exInit_cp1, Function.update_eq_self]
  · show Function.update exFlip.arc_error 0 _ = exInit.arc_error
    rw [show exKappa (exFlip.cut_point 0) = 0 from rfl,
      show exFlip.cut_low 0 = 0 from rfl, show exFlip.cut_high 0 = 1 from rfl,
      show exFlip.arc_error 0 = 0 from exInit_ae0,
      show exFlip.arc_error 1 = 4 from exInit_ae1,
      hcp1, exMove_up]
    have hval : exE (exFlip.cut_point 0) (1 / 2) = exFlip.arc_error 0 := by
      rw [hcp0, show exFlip.arc_error 0 = 0 from exInit_ae0]
      simp [exE]
    rw [hval, Function.update_eq_self]
    rfl

/-- Counterexample to claim C3 as stated: for the concrete estimator `exE`,
zero curvature, `ε = 1` and one interior cut with admissible range `[0,1]`, the
refinement loop leaves the interior cut point at `−1/2`, strictly below
`cut_point[0] = 0` — the final partition is not strictly increasing. -/
theorem jiggleRefine_not_strictly_increasing :
    (jiggleRefine exE exKappa 1 exLow exHigh 1).cut_point 1 <
      (jiggleRefine exE exKappa 1 exLow exHigh 1).cut_point 0 := by
  unfold jiggleRefine
  rw [jiggleFor_from_one]
  rw [show initState exE exLow exHigh 1 = exInit from rfl]
  rw [exPass_init, exPass_flip, exPass_init, exPass_flip, exPass_init,
    exPass_flip, exPass_init, exPass_flip, exPass_init]
  have h1 : exFlip.cut_point 1 = -(1 / 2) := by
    show Function.update exInit.cut_point 1 (-(1 / 2)) 1 = -(1 / 2)
    rw [Function.update_same]
  have h0 : exFlip.cut_point 0 = 0 := by
    show Function.update exInit.cut_point 1 (-(1 / 2)) 0 = 0
    rw [Function.update_noteq (by omega)]
    exact exInit_cp0
  rw [h0, h1]
  norm_num

end Glyphy
